import Mathlib

/-!
Shallow embedding of the codegraph repository (Desgue/codegraph).

The embedded components are:

* `parser/loader.go` — `Load` and `deduplicatePackages`: the package load
  pipeline built on the external `golang.org/x/tools/go/packages` engine.
* `path` (TargetDirectory) — `NewTargetDirectory` and `Validate`: directory
  resolution and validation.
* `cli/parse_command.go` and `main.go` — the `parse` subcommand and the
  process exit status.

External collaborators (the go/packages engine, the filesystem, the `flag`
package) are modelled at their interface boundary: their answers are inputs
to the embedded functions. Go's unordered map iteration (used when
`deduplicatePackages` converts its `seen` map back to a slice) is modelled
by quantifying over all permutations of the map's value set.

Go compares strings byte-wise over their UTF-8 encoding; since UTF-8
preserves code-point order and code-point boundaries, the code-point-wise
order and suffix test defined below are faithful models of Go's byte-wise
ones.
-/

namespace Codegraph

/-- A package record as returned by the go/packages engine
(`*packages.Package`), restricted to the fields the repository reads:
`PkgPath`, `Name`, `GoFiles`, `Errors` and the optional `Module` path. -/
structure GoPackage where
  pkgPath : String
  name : String
  goFiles : List String
  errors : List String
  modulePath : Option String
deriving DecidableEq, Repr

/-- The suffix test of `strings.HasSuffix` (used by `deduplicatePackages`
to spot synthetic `.test` packages). Go tests byte-wise over the UTF-8
encoding; since a valid UTF-8 string can only be a byte-suffix of another
on a code-point boundary, the byte-wise test coincides with the
code-point-sequence suffix test used here. -/
def hasSuffix (s suffix : String) : Bool :=
  suffix.data.isSuffixOf s.data

/-- Lexicographic strict order on code-point sequences. -/
def charListLt : List Char → List Char → Bool
  | _, [] => false
  | [], _ :: _ => true
  | a :: as, b :: bs =>
    if a = b then charListLt as bs
    else decide (a.toNat < b.toNat)

/-- Go's byte-wise `<` on strings. UTF-8 preserves code-point order, so the
byte-wise lexicographic order coincides with the code-point lexicographic
order computed here. -/
def strLt (a b : String) : Bool := charListLt a.data b.data

/-- One update of the `seen` map in `deduplicatePackages`
(loader.go, lines 65-72): if the key is present, replace the stored variant
exactly when the new one has strictly more files; otherwise add the new
key. The map is represented as an association list in key-insertion order. -/
def insertPkg (seen : List (String × GoPackage)) (pkg : GoPackage) :
    List (String × GoPackage) :=
  match seen with
  | [] => [(pkg.pkgPath, pkg)]
  | (k, existing) :: rest =>
    if k = pkg.pkgPath then
      if existing.goFiles.length < pkg.goFiles.length then
        (k, pkg) :: rest
      else
        (k, existing) :: rest
    else
      (k, existing) :: insertPkg rest pkg

/-- The loop body of `deduplicatePackages` (loader.go, lines 59-73):
packages whose import path carries the synthetic `.test` suffix are
skipped, every other package is folded into the `seen` map. -/
def dedupStep (seen : List (String × GoPackage)) (pkg : GoPackage) :
    List (String × GoPackage) :=
  if hasSuffix pkg.pkgPath (".test") then seen else insertPkg seen pkg

/-- The `seen` map built by `deduplicatePackages` over the whole engine
result, as an association list in key-insertion order. -/
def dedupSeen (pkgs : List GoPackage) : List (String × GoPackage) :=
  pkgs.foldl dedupStep []

/-- The value set of the `seen` map, in key-insertion order. Go's
`deduplicatePackages` returns these values in the map's unordered iteration
order, i.e. in some permutation of this list. -/
def dedupValues (pkgs : List GoPackage) : List GoPackage :=
  (dedupSeen pkgs).map Prod.snd

/-- The possible return values of Go's `deduplicatePackages` on input
`pkgs`: any enumeration order of the `seen` map's values. -/
def DedupResult (pkgs out : List GoPackage) : Prop :=
  out.Perm (dedupValues pkgs)

instance (pkgs out : List GoPackage) : Decidable (DedupResult pkgs out) :=
  List.decidablePerm out (dedupValues pkgs)

/-- Map lookup on the association-list representation of `seen`. -/
def lookupKey (id : String) : List (String × GoPackage) → Option GoPackage
  | [] => none
  | (k, v) :: rest => if k = id then some v else lookupKey id rest

/-- Modelled from the spec: the engine's bundled diagnostic-printing
facility (`packages.PrintErrors`, external to the repository) prints every
embedded error and "returns the count of affected packages", i.e. the
number of packages carrying at least one embedded error. -/
def printErrorsCount (pkgs : List GoPackage) : Nat :=
  (pkgs.filter (fun p => !p.errors.isEmpty)).length

/-- The strict comparison `Load` hands to `sort.Slice` (loader.go, lines
46-48): ascending byte-wise order of import paths. -/
def pkgLt (a b : GoPackage) : Prop := strLt a.pkgPath b.pkgPath = true

/-- The non-strict order `sort.Slice` leaves the slice in, given the strict
comparison `pkgLt`. -/
def pkgLe (a b : GoPackage) : Prop := strLt b.pkgPath a.pkgPath = false

instance : DecidableRel pkgLe := fun a b => by
  unfold pkgLe; infer_instance

instance : DecidableRel pkgLt := fun a b => by
  unfold pkgLt; infer_instance

theorem charListLt_trans :
    ∀ {a b c : List Char}, charListLt a b = true → charListLt b c = true →
      charListLt a c = true := by
  intro a
  induction a with
  | nil =>
    intro b c h1 h2
    cases c with
    | nil =>
      cases b with
      | nil => exact h1
      | cons b₀ bs => simp [charListLt] at h2
    | cons c₀ cs => rfl
  | cons a₀ as ih =>
    intro b c h1 h2
    cases b with
    | nil => simp [charListLt] at h1
    | cons b₀ bs =>
      cases c with
      | nil => simp [charListLt] at h2
      | cons c₀ cs =>
        rw [charListLt] at h1 h2 ⊢
        by_cases hab : a₀ = b₀
        · rw [if_pos hab] at h1
          by_cases hbc : b₀ = c₀
          · rw [if_pos hbc] at h2
            rw [if_pos (hab.trans hbc)]
            exact ih h1 h2
          · rw [if_neg hbc, decide_eq_true_eq] at h2
            have hac : a₀ ≠ c₀ := fun h => hbc (hab ▸ h)
            rw [if_neg hac, decide_eq_true_eq, hab]
            exact h2
        · rw [if_neg hab, decide_eq_true_eq] at h1
          by_cases hbc : b₀ = c₀
          · have hac : a₀ ≠ c₀ := fun h => hab (h.trans hbc.symm)
            rw [if_neg hac, decide_eq_true_eq, ← hbc]
            exact h1
          · rw [if_neg hbc, decide_eq_true_eq] at h2
            have hlt : a₀.toNat < c₀.toNat := lt_trans h1 h2
            have hac : a₀ ≠ c₀ := fun h => by rw [h] at hlt; omega
            rw [if_neg hac, decide_eq_true_eq]
            exact hlt

theorem charListLt_asymm :
    ∀ {a b : List Char}, charListLt a b = true → charListLt b a = false := by
  intro a
  induction a with
  | nil =>
    intro b h
    cases b with
    | nil => rfl
    | cons b₀ bs => rfl
  | cons a₀ as ih =>
    intro b h
    cases b with
    | nil => simp [charListLt] at h
    | cons b₀ bs =>
      rw [charListLt] at h ⊢
      by_cases hab : a₀ = b₀
      · rw [if_pos hab] at h
        rw [if_pos hab.symm]
        exact ih h
      · rw [if_neg hab, decide_eq_true_eq] at h
        have hba : b₀ ≠ a₀ := fun h' => hab h'.symm
        rw [if_neg hba, decide_eq_false_iff_not]
        exact Nat.lt_asymm h

theorem charListLt_eq_of_not :
    ∀ {a b : List Char}, charListLt a b = false → charListLt b a = false →
      a = b := by
  intro a
  induction a with
  | nil =>
    intro b h1 _
    cases b with
    | nil => rfl
    | cons b₀ bs => simp [charListLt] at h1
  | cons a₀ as ih =>
    intro b h1 h2
    cases b with
    | nil => simp [charListLt] at h2
    | cons b₀ bs =>
      rw [charListLt] at h1 h2
      by_cases hab : a₀ = b₀
      · rw [if_pos hab] at h1
        rw [if_pos hab.symm] at h2
        rw [hab, ih h1 h2]
      · rw [if_neg hab, decide_eq_false_iff_not] at h1
        have hba : b₀ ≠ a₀ := fun h' => hab h'.symm
        rw [if_neg hba, decide_eq_false_iff_not] at h2
        have hnat : a₀.toNat = b₀.toNat :=
          Nat.le_antisymm (Nat.not_lt.mp h2) (Nat.not_lt.mp h1)
        exact absurd (Char.eq_of_val_eq (UInt32.ext hnat)) hab

theorem strLt_trans {a b c : String} (h1 : strLt a b = true)
    (h2 : strLt b c = true) : strLt a c = true :=
  charListLt_trans h1 h2

theorem strLt_asymm {a b : String} (h : strLt a b = true) :
    strLt b a = false :=
  charListLt_asymm h

theorem strLt_eq_of_not {a b : String} (h1 : strLt a b = false)
    (h2 : strLt b a = false) : a = b := by
  cases a with
  | mk da =>
    cases b with
    | mk db =>
      exact congrArg String.mk (charListLt_eq_of_not h1 h2)

instance : IsTotal GoPackage pkgLe :=
  ⟨fun a b => by
    unfold pkgLe
    cases h : strLt b.pkgPath a.pkgPath with
    | false => exact Or.inl rfl
    | true => exact Or.inr (strLt_asymm h)⟩

instance : IsTrans GoPackage pkgLe :=
  ⟨fun a b c h1 h2 => by
    unfold pkgLe at *
    cases h : strLt c.pkgPath a.pkgPath with
    | false => rfl
    | true =>
      exfalso
      cases hab : strLt a.pkgPath b.pkgPath with
      | true =>
        have hcb := strLt_trans h hab
        rw [h2] at hcb
        exact Bool.false_ne_true hcb
      | false =>
        have hab' : a.pkgPath = b.pkgPath := strLt_eq_of_not hab h1
        rw [hab', h2] at h
        exact Bool.false_ne_true h⟩

instance : IsAntisymm GoPackage pkgLt :=
  ⟨fun a b h h' => by
    unfold pkgLt at h h'
    have hba := strLt_asymm h
    rw [hba] at h'
    exact absurd h' Bool.false_ne_true⟩

theorem pkgLt_of_le_of_ne {a b : GoPackage} (hle : pkgLe a b)
    (hne : a.pkgPath ≠ b.pkgPath) : pkgLt a b := by
  unfold pkgLe at hle
  unfold pkgLt
  cases h : strLt a.pkgPath b.pkgPath with
  | true => rfl
  | false => exact absurd (strLt_eq_of_not h hle) hne

/-- The sort in `Load` (loader.go, lines 46-48). `sort.Slice` produces a
permutation of its input ordered by the supplied comparison; since the
deduplicated entries have pairwise distinct import paths that permutation
is unique, so a concrete sorting algorithm represents it faithfully. -/
def sortPkgs (l : List GoPackage) : List GoPackage :=
  l.insertionSort pkgLe

/-- The triple `([]*packages.Package, int, error)` returned by `Load`. -/
structure LoadReturn where
  pkgs : List GoPackage
  errorCount : Nat
  err : Option String
deriving DecidableEq, Repr

/-- Function `Load` (loader.go, lines 27-51). Its two external inputs are explicit
parameters: `engine` is the answer of the single `packages.Load` call, and
`iter` is the slice `deduplicatePackages` built from its `seen` map, in
whatever order Go's map iteration produced (constrained by `DedupResult`
in the theorems). On an engine error `Load` returns `nil, 0, err` wrapped
as "failed to load packages"; otherwise it counts failures over the raw
engine result, deduplicates, sorts, and reports no hard error. -/
def Load (engine : Except String (List GoPackage)) (iter : List GoPackage) :
    LoadReturn :=
  match engine with
  | .error e => { pkgs := [], errorCount := 0,
                  err := some ("failed to load packages: " ++ e) }
  | .ok pkgs => { pkgs := sortPkgs iter,
                  errorCount := printErrorsCount pkgs,
                  err := none }

/-! ### Directory resolution (`path` package, TargetDirectory) -/

/-- The answer of one `os.Stat` call, at the granularity the `path` package
inspects it: `os.IsNotExist`, `os.IsPermission`, any other error, or a
successful stat carrying the is-directory bit. -/
inductive StatResult where
  | notExist
  | permissionDenied
  | otherError (msg : String)
  | entry ( isDir : Bool)
deriving DecidableEq, Repr

/-- The filesystem as seen through the calls the `path` package makes:
`os.Getwd`, `filepath.Abs`, `filepath.EvalSymlinks` and `os.Stat`. Each is
an input/output map; `none` models a call that returns an error. -/
structure FileSystemModel where
  getwd : Option String
  abs : String → Option String
  evalSymlinks : String → Option String
  stat : String → StatResult

/-- The error kinds `Validate` can produce (part_004, lines 46-63), each
carrying what the corresponding `fmt.Errorf` embeds. -/
inductive ValidateError where
  | notFound (path : String)
  | permissionDenied (path : String)
  | accessError (path : String) (msg : String)
  | isAFile (path : String)
deriving DecidableEq, Repr

/-- The message text of each `Validate` error, exactly as formatted by
`fmt.Errorf` in part_004. -/
def ValidateError.text : ValidateError → String
  | .notFound p => "directory does not exist: " ++ p
  | .permissionDenied p => "permission denied accessing '" ++ p ++ "'"
  | .accessError p m => "error accessing '" ++ p ++ "': " ++ m
  | .isAFile p => "'" ++ p ++ "' is a file, not a directory"

/-- Value type `TargetDirectory` (part_004, lines 9-11). -/
structure TargetDirectory where
  path : String
deriving DecidableEq, Repr

/-- Method `Validate` of `TargetDirectory` (part_004, lines 46-63): stat the stored
path; missing → not-found, permission → permission-denied, other stat
error → access error, stat of a non-directory → is-a-file, else success. -/
def Validate (fs : FileSystemModel) (td : TargetDirectory) :
    Option ValidateError :=
  match fs.stat td.path with
  | .notExist => some (.notFound td.path)
  | .permissionDenied => some (.permissionDenied td.path)
  | .otherError m => some (.accessError td.path m)
  | .entry d => if d then none else some (.isAFile td.path)

/-- The error cases of `NewTargetDirectory` (part_004, lines 13-44), each
carrying what the corresponding `fmt.Errorf` embeds. -/
inductive ResolveError where
  | getwdFailed
  | absFailed (input : String)
  | symlinkFailed (resolved : String)
  | invalid (e : ValidateError)
deriving DecidableEq, Repr

/-- The message text of each `NewTargetDirectory` error as formatted in
part_004 (the wrapped causes are elided; the embedded paths are kept). -/
def ResolveError.text : ResolveError → String
  | .getwdFailed => "failed to get current directory"
  | .absFailed input => "failed to resolve path '" ++ input ++ "'"
  | .symlinkFailed resolved => "failed to resolve symlinks for '" ++ resolved ++ "'"
  | .invalid e => e.text

/-- The first half of `NewTargetDirectory` (part_004, lines 14-28): empty
input is replaced by the working directory, other input is made absolute
relative to it. -/
def resolveInput (fs : FileSystemModel) (inputPath : String) :
    Except ResolveError String :=
  if inputPath = "" then
    match fs.getwd with
    | none => .error .getwdFailed
    | some cwd => .ok cwd
  else
    match fs.abs inputPath with
    | none => .error (.absFailed inputPath)
    | some a => .ok a

/-- Function `NewTargetDirectory` (part_004, lines 13-44): resolve the input, then
canonicalize through `EvalSymlinks`, then validate the canonical path. -/
def NewTargetDirectory (fs : FileSystemModel) (inputPath : String) :
    Except ResolveError TargetDirectory :=
  match resolveInput fs inputPath with
  | .error e => .error e
  | .ok resolvedPath =>
    match fs.evalSymlinks resolvedPath with
    | none => .error (.symlinkFailed resolvedPath)
    | some canonicalPath =>
      let td : TargetDirectory := { path := canonicalPath }
      match Validate fs td with
      | some e => .error (.invalid e)
      | none => .ok td

/-! ### CLI (`cli/parse_command.go` and `main.go`) -/

/-- Modelled from the spec: the result of the external `flag` package's
`Parse` over the subcommand arguments — the two flag values and the
positional arguments — or a parse error. -/
structure ParsedFlags where
  output : String
  includeTests : Bool
  positionals : List String
deriving DecidableEq, Repr

/-- The errors `NewParseCommand` can return. -/
inductive CmdError where
  | flagError (msg : String)
  | dirError (e : ResolveError)
  | outputMissing
deriving DecidableEq, Repr

/-- Struct `ParseCommand` (parse_command.go). -/
structure ParseCommand where
  targetDirectory : TargetDirectory
  outputFile : String
  includeTests : Bool
deriving DecidableEq, Repr

/-- The positional directory argument: the first positional if any,
otherwise the empty string (parse_command.go, lines 86-89). -/
def dirArgOf (f : ParsedFlags) : String :=
  match f.positionals with
  | [] => ""
  | d :: _ => d

/-- Function `NewParseCommand` (parse_command.go, lines 76-107): flag parsing, then
directory resolution, then `Validate` which rejects an empty `--output`. -/
def NewParseCommand (fs : FileSystemModel)
    (flags : Except String ParsedFlags) : Except CmdError ParseCommand :=
  match flags with
  | .error e => .error (.flagError e)
  | .ok f =>
    match NewTargetDirectory fs (dirArgOf f) with
    | .error e => .error (.dirError e)
    | .ok td =>
      if f.output = "" then .error .outputMissing
      else .ok { targetDirectory := td, outputFile := f.output,
                 includeTests := f.includeTests }

/-- Method `Execute` of `ParseCommand` (parse_command.go, lines 116-157): run the
load, propagate its hard error, otherwise print the report and return nil
— partial parse failures only change what is printed. -/
def Execute (engine : Except String (List GoPackage))
    (iter : List GoPackage) : Option String :=
  (Load engine iter).err

/-- The exit status of `main` for a `parse` invocation (main.go, lines
17-27): 1 if `NewParseCommand` or `Execute` returns an error, 0 otherwise. -/
def parseExitStatus (fs : FileSystemModel)
    (flags : Except String ParsedFlags)
    (engine : Except String (List GoPackage))
    (iter : List GoPackage) : Nat :=
  match NewParseCommand fs flags with
  | .error _ => 1
  | .ok _ =>
    match Execute engine iter with
    | some _ => 1
    | none => 0

/-! ### Invariants of the `seen` map -/

/-- Well-formedness of the `seen` association list: pairwise distinct keys,
every entry keyed by its package's import path, and no stored package with
the synthetic suffix. -/
structure SeenInv (seen : List (String × GoPackage)) : Prop where
  nodupKeys : (seen.map Prod.fst).Nodup
  coherent : ∀ e ∈ seen, (Prod.snd e).pkgPath = Prod.fst e
  noTest : ∀ e ∈ seen, hasSuffix (Prod.snd e).pkgPath (".test") = false

theorem insertPkg_keys (seen : List (String × GoPackage)) (pkg : GoPackage) :
    (insertPkg seen pkg).map Prod.fst =
      if pkg.pkgPath ∈ seen.map Prod.fst then seen.map Prod.fst
      else seen.map Prod.fst ++ [pkg.pkgPath] := by
  induction seen with
  | nil => simp [insertPkg]
  | cons e rest ih =>
    obtain ⟨k, v⟩ := e
    by_cases hk : k = pkg.pkgPath
    · subst hk
      by_cases hl : v.goFiles.length < pkg.goFiles.length <;>
        simp [insertPkg, hl]
    · have hk' : pkg.pkgPath ≠ k := fun h => hk h.symm
      by_cases hm : pkg.pkgPath ∈ rest.map Prod.fst <;>
        simp [insertPkg, hk, hk', ih, hm]

theorem mem_insertPkg (seen : List (String × GoPackage)) (pkg : GoPackage) :
    ∀ e ∈ insertPkg seen pkg, e ∈ seen ∨ e = (pkg.pkgPath, pkg) := by
  induction seen with
  | nil => simp [insertPkg]
  | cons hd rest ih =>
    obtain ⟨k, v⟩ := hd
    intro e he
    rw [insertPkg] at he
    by_cases hk : k = pkg.pkgPath
    · rw [if_pos hk] at he
      by_cases hl : v.goFiles.length < pkg.goFiles.length
      · rw [if_pos hl] at he
        rcases List.mem_cons.mp he with h | h
        · exact Or.inr (by rw [h, hk])
        · exact Or.inl (List.mem_cons_of_mem _ h)
      · rw [if_neg hl] at he
        rcases List.mem_cons.mp he with h | h
        · exact Or.inl (by rw [h]; exact List.mem_cons_self _ _)
        · exact Or.inl (List.mem_cons_of_mem _ h)
    · rw [if_neg hk] at he
      rcases List.mem_cons.mp he with h | h
      · exact Or.inl (by rw [h]; exact List.mem_cons_self _ _)
      · rcases ih e h with h' | h'
        · exact Or.inl (List.mem_cons_of_mem _ h')
        · exact Or.inr h'

theorem seenInv_insertPkg {seen : List (String × GoPackage)}
    (h : SeenInv seen) (pkg : GoPackage)
    (hp : hasSuffix pkg.pkgPath (".test") = false) :
    SeenInv (insertPkg seen pkg) := by
  refine ⟨?_, ?_, ?_⟩
  · rw [insertPkg_keys]
    by_cases hm : pkg.pkgPath ∈ seen.map Prod.fst
    · simpa [hm] using h.nodupKeys
    · simp only [if_neg hm]
      exact List.Nodup.append h.nodupKeys (List.nodup_singleton _)
        (by simpa [List.disjoint_singleton] using hm)
  · intro e he
    rcases mem_insertPkg seen pkg e he with h' | h'
    · exact h.coherent e h'
    · simp [h']
  · intro e he
    rcases mem_insertPkg seen pkg e he with h' | h'
    · exact h.noTest e h'
    · simpa [h'] using hp

theorem seenInv_dedupStep {seen : List (String × GoPackage)}
    (h : SeenInv seen) (pkg : GoPackage) : SeenInv (dedupStep seen pkg) := by
  unfold dedupStep
  by_cases ht : hasSuffix pkg.pkgPath (".test")
  · simpa [ht] using h
  · simpa [ht] using seenInv_insertPkg h pkg (by simpa using ht)

theorem seenInv_foldl (pkgs : List GoPackage) :
    ∀ seen, SeenInv seen → SeenInv (pkgs.foldl dedupStep seen) := by
  induction pkgs with
  | nil => intro seen h; simpa using h
  | cons pkg rest ih =>
    intro seen h
    rw [List.foldl_cons]
    exact ih _ (seenInv_dedupStep h pkg)

theorem seenInv_dedupSeen (pkgs : List GoPackage) : SeenInv (dedupSeen pkgs) :=
  seenInv_foldl pkgs [] ⟨List.nodup_nil, by simp, by simp⟩

theorem mem_dedupFold (pkgs : List GoPackage) :
    ∀ seen, ∀ e ∈ pkgs.foldl dedupStep seen, e ∈ seen ∨ e.2 ∈ pkgs := by
  induction pkgs with
  | nil => intro seen e he; exact Or.inl (by simpa using he)
  | cons pkg rest ih =>
    intro seen e he
    rw [List.foldl_cons] at he
    rcases ih (dedupStep seen pkg) e he with h' | h'
    · rw [dedupStep] at h'
      by_cases ht : hasSuffix pkg.pkgPath (".test")
      · rw [if_pos ht] at h'
        exact Or.inl h'
      · rw [if_neg ht] at h'
        rcases mem_insertPkg seen pkg e h' with h'' | h''
        · exact Or.inl h''
        · exact Or.inr (by simp [h''])
    · exact Or.inr (List.mem_cons_of_mem _ h')

theorem mem_dedupValues {pkgs : List GoPackage} :
    ∀ p ∈ dedupValues pkgs, p ∈ pkgs := by
  intro p hp
  simp only [dedupValues, List.mem_map] at hp
  obtain ⟨e, he, rfl⟩ := hp
  rcases mem_dedupFold pkgs [] e he with h | h
  · simp at h
  · exact h

theorem length_insertPkg (seen : List (String × GoPackage)) (pkg : GoPackage) :
    (insertPkg seen pkg).length ≤ seen.length + 1 := by
  have := congrArg List.length (insertPkg_keys seen pkg)
  simp only [List.length_map] at this
  by_cases hm : pkg.pkgPath ∈ seen.map Prod.fst <;> simp [hm] at this <;> omega

theorem length_dedupFold (pkgs : List GoPackage) :
    ∀ seen, (pkgs.foldl dedupStep seen).length ≤ seen.length + pkgs.length := by
  induction pkgs with
  | nil => intro seen; simp
  | cons pkg rest ih =>
    intro seen
    have h1 := ih (dedupStep seen pkg)
    have h2 : (dedupStep seen pkg).length ≤ seen.length + 1 := by
      unfold dedupStep
      by_cases ht : hasSuffix pkg.pkgPath (".test")
      · simp [ht]
      · simpa [ht] using length_insertPkg seen pkg
    simp only [List.foldl_cons, List.length_cons]
    omega

/-! ### Per-identifier view of the reconciliation -/

/-- The per-identifier choice the `seen`-map update makes, folded over the
variants of one identifier in encounter order: keep the current best unless
the newcomer has strictly more files. -/
def pickBest (best : Option GoPackage) (q : GoPackage) : Option GoPackage :=
  match best with
  | none => some q
  | some b => if b.goFiles.length < q.goFiles.length then some q else some b

theorem lookupKey_insertPkg (seen : List (String × GoPackage))
    (pkg : GoPackage) (id : String) :
    lookupKey id (insertPkg seen pkg) =
      if pkg.pkgPath = id then pickBest (lookupKey id seen) pkg
      else lookupKey id seen := by
  induction seen with
  | nil =>
    by_cases hid : pkg.pkgPath = id <;>
      simp [insertPkg, lookupKey, pickBest, hid]
  | cons hd rest ih =>
    obtain ⟨k, v⟩ := hd
    rw [insertPkg]
    by_cases hk : k = pkg.pkgPath
    · subst hk
      by_cases hid : pkg.pkgPath = id
      · subst hid
        by_cases hl : v.goFiles.length < pkg.goFiles.length <;>
          simp [lookupKey, pickBest, hl]
      · by_cases hl : v.goFiles.length < pkg.goFiles.length <;>
          simp [lookupKey, pickBest, hid, hl]
    · rw [if_neg hk]
      by_cases hid : k = id
      · subst hid
        have : pkg.pkgPath ≠ k := fun h => hk h.symm
        simp [lookupKey, this]
      · simp [lookupKey, hid, ih]

theorem lookupKey_dedupFold (id : String)
    (hid : hasSuffix id (".test") = false) :
    ∀ (pkgs : List GoPackage) (seen : List (String × GoPackage)),
      lookupKey id (pkgs.foldl dedupStep seen) =
        (pkgs.filter (fun q => q.pkgPath = id)).foldl pickBest
          (lookupKey id seen) := by
  intro pkgs
  induction pkgs with
  | nil => intro seen; simp
  | cons pkg rest ih =>
    intro seen
    rw [List.foldl_cons, dedupStep]
    by_cases ht : hasSuffix pkg.pkgPath (".test")
    · have hne : pkg.pkgPath ≠ id := by
        intro h; rw [h, hid] at ht; exact Bool.false_ne_true ht
      rw [if_pos ht, ih seen, List.filter_cons]
      simp [hne]
    · rw [if_neg ht, ih (insertPkg seen pkg), lookupKey_insertPkg]
      by_cases hp : pkg.pkgPath = id
      · rw [if_pos hp]
        simp [List.filter_cons, List.foldl_cons, hp]
      · rw [if_neg hp]
        simp [List.filter_cons, hp]

theorem lookupKey_dedupSeen (id : String)
    (hid : hasSuffix id (".test") = false) (pkgs : List GoPackage) :
    lookupKey id (dedupSeen pkgs) =
      (pkgs.filter (fun q => q.pkgPath = id)).foldl pickBest none := by
  rw [dedupSeen, lookupKey_dedupFold id hid pkgs []]
  rfl

theorem lookupKey_mem_keys {seen : List (String × GoPackage)} {id : String}
    {v : GoPackage} (h : lookupKey id seen = some v) :
    (id, v) ∈ seen := by
  induction seen with
  | nil => simp [lookupKey] at h
  | cons hd rest ih =>
    obtain ⟨k, w⟩ := hd
    rw [lookupKey] at h
    by_cases hk : k = id
    · rw [if_pos hk] at h
      subst hk
      cases h
      exact List.mem_cons_self _ _
    · rw [if_neg hk] at h
      exact List.mem_cons_of_mem _ (ih h)

theorem lookupKey_test_none {pkgs : List GoPackage} {id : String}
    (hid : hasSuffix id (".test") = true) :
    lookupKey id (dedupSeen pkgs) = none := by
  cases h : lookupKey id (dedupSeen pkgs) with
  | none => rfl
  | some v =>
    have hmem := lookupKey_mem_keys h
    have hco := (seenInv_dedupSeen pkgs).coherent _ hmem
    have hnt := (seenInv_dedupSeen pkgs).noTest _ hmem
    simp only at hco hnt
    rw [hco, hid] at hnt
    exact absurd hnt.symm Bool.false_ne_true

/-- First-maximum decomposition produced by folding `pickBest` from a
running best `b`. -/
theorem foldl_pickBest_some_acc :
    ∀ (vs : List GoPackage) (b p : GoPackage),
      vs.foldl pickBest (some b) = some p →
      (p = b ∧ ∀ q ∈ vs, q.goFiles.length ≤ b.goFiles.length) ∨
      (∃ pre post, vs = pre ++ p :: post ∧
        b.goFiles.length < p.goFiles.length ∧
        (∀ q ∈ pre, q.goFiles.length < p.goFiles.length) ∧
        ∀ q ∈ post, q.goFiles.length ≤ p.goFiles.length) := by
  intro vs
  induction vs with
  | nil =>
    intro b p h
    simp only [List.foldl_nil, Option.some.injEq] at h
    exact Or.inl ⟨h.symm, by simp⟩
  | cons q rest ih =>
    intro b p h
    rw [List.foldl_cons] at h
    by_cases hl : b.goFiles.length < q.goFiles.length
    · rw [show pickBest (some b) q = some q by simp [pickBest, hl]] at h
      rcases ih q p h with ⟨rfl, hall⟩ | ⟨pre, post, hsplit, hbp, hpre, hpost⟩
      · exact Or.inr ⟨[], rest, by simp, hl, by simp, hall⟩
      · refine Or.inr ⟨q :: pre, post, by simp [hsplit], lt_trans hl hbp, ?_, hpost⟩
        intro r hr
        rcases List.mem_cons.mp hr with h' | h'
        · rw [h']; exact hbp
        · exact hpre r h'
    · rw [show pickBest (some b) q = some b by simp [pickBest, hl]] at h
      rcases ih b p h with ⟨rfl, hall⟩ | ⟨pre, post, hsplit, hbp, hpre, hpost⟩
      · refine Or.inl ⟨rfl, ?_⟩
        intro r hr
        rcases List.mem_cons.mp hr with h' | h'
        · rw [h']; omega
        · exact hall r h'
      · refine Or.inr ⟨q :: pre, post, by simp [hsplit], hbp, ?_, hpost⟩
        intro r hr
        rcases List.mem_cons.mp hr with h' | h'
        · rw [h']; omega
        · exact hpre r h'

/-- The survivor of the per-identifier fold is the first variant of
maximal file-set cardinality, in encounter order. -/
theorem foldl_pickBest_none {vs : List GoPackage} {p : GoPackage}
    (h : vs.foldl pickBest none = some p) :
    ∃ pre post, vs = pre ++ p :: post ∧
      (∀ q ∈ pre, q.goFiles.length < p.goFiles.length) ∧
      ∀ q ∈ post, q.goFiles.length ≤ p.goFiles.length := by
  cases vs with
  | nil => simp [List.foldl_nil] at h
  | cons q rest =>
    rw [List.foldl_cons, show pickBest none q = some q from rfl] at h
    rcases foldl_pickBest_some_acc rest q p h with
      ⟨rfl, hall⟩ | ⟨pre, post, hsplit, hbp, hpre, hpost⟩
    · exact ⟨[], rest, by simp, by simp, hall⟩
    · refine ⟨q :: pre, post, by simp [hsplit], ?_, hpost⟩
      intro r hr
      rcases List.mem_cons.mp hr with h' | h'
      · rw [h']; exact hbp
      · exact hpre r h'

/-! ### From the `seen` map to the sorted output -/

theorem seenInv_tail {hd : String × GoPackage}
    {rest : List (String × GoPackage)} (h : SeenInv (hd :: rest)) :
    SeenInv rest :=
  ⟨(List.nodup_cons.mp h.nodupKeys).2,
   fun e he => h.coherent e (List.mem_cons_of_mem _ he),
   fun e he => h.noTest e (List.mem_cons_of_mem _ he)⟩

theorem filter_values_eq_lookup :
    ∀ (seen : List (String × GoPackage)), SeenInv seen → ∀ id : String,
      ((seen.map Prod.snd).filter (fun p => p.pkgPath = id)) =
        (lookupKey id seen).toList := by
  intro seen
  induction seen with
  | nil => intro _ id; simp [lookupKey]
  | cons hd rest ih =>
    intro hinv id
    obtain ⟨k, v⟩ := hd
    have hco : v.pkgPath = k := by
      simpa using hinv.coherent (k, v) (List.mem_cons_self _ _)
    have hknotin : k ∉ rest.map Prod.fst :=
      (List.nodup_cons.mp hinv.nodupKeys).1
    rw [List.map_cons, List.filter_cons, lookupKey]
    by_cases hk : k = id
    · subst hk
      have hrest : (rest.map Prod.snd).filter (fun p => p.pkgPath = k) = [] := by
        rw [List.filter_eq_nil_iff]
        intro p hp
        rw [List.mem_map] at hp
        obtain ⟨e, he, rfl⟩ := hp
        have : (Prod.snd e).pkgPath = Prod.fst e :=
          hinv.coherent e (List.mem_cons_of_mem _ he)
        rw [this]
        simp only [decide_eq_true_eq]
        intro hkeq
        exact hknotin (hkeq ▸ List.mem_map_of_mem Prod.fst he)
      simp [hco, hrest]
    · have hv : ¬(v.pkgPath = id) := by rw [hco]; exact hk
      simp only [hv, decide_eq_true_eq, if_neg, decide_eq_false hv,
        Bool.false_eq_true, not_false_iff]
      rw [if_neg hk]
      exact ih (seenInv_tail hinv) id

theorem dedupValues_pairwise_ne (pkgs : List GoPackage) :
    (dedupValues pkgs).Pairwise fun a b => a.pkgPath ≠ b.pkgPath := by
  have hinv := seenInv_dedupSeen pkgs
  have h1 : (dedupSeen pkgs).map Prod.fst =
      (dedupValues pkgs).map GoPackage.pkgPath := by
    rw [dedupValues, List.map_map]
    exact (List.map_congr_left fun e he => (hinv.coherent e he).symm)
  have h2 : ((dedupValues pkgs).map GoPackage.pkgPath).Nodup :=
    h1 ▸ hinv.nodupKeys
  exact List.pairwise_map.mp h2

theorem dedupValues_noTest {pkgs : List GoPackage} :
    ∀ p ∈ dedupValues pkgs, hasSuffix p.pkgPath (".test") = false := by
  intro p hp
  rw [dedupValues, List.mem_map] at hp
  obtain ⟨e, he, rfl⟩ := hp
  exact (seenInv_dedupSeen pkgs).noTest e he

theorem pathNe_symm {a b : GoPackage} (h : a.pkgPath ≠ b.pkgPath) :
    b.pkgPath ≠ a.pkgPath :=
  Ne.symm h

theorem sortPkgs_perm (l : List GoPackage) : (sortPkgs l).Perm l :=
  List.perm_insertionSort pkgLe l

theorem sortPkgs_sorted (l : List GoPackage) : List.Sorted pkgLe (sortPkgs l) :=
  List.sorted_insertionSort pkgLe l

theorem sortPkgs_sorted_lt {l : List GoPackage}
    (h : l.Pairwise fun a b => a.pkgPath ≠ b.pkgPath) :
    List.Sorted pkgLt (sortPkgs l) := by
  have hne : (sortPkgs l).Pairwise fun a b => a.pkgPath ≠ b.pkgPath :=
    (List.Perm.pairwise_iff pathNe_symm (sortPkgs_perm l)).mpr h
  exact ((sortPkgs_sorted l).and hne).imp fun hab =>
    pkgLt_of_le_of_ne hab.1 hab.2

theorem sortPkgs_eq_of_perm {l₁ l₂ : List GoPackage}
    (hp : l₁.Perm l₂) (h : l₂.Pairwise fun a b => a.pkgPath ≠ b.pkgPath) :
    sortPkgs l₁ = sortPkgs l₂ := by
  have h₁ : l₁.Pairwise fun a b => a.pkgPath ≠ b.pkgPath :=
    (List.Perm.pairwise_iff pathNe_symm hp).mpr h
  exact List.eq_of_perm_of_sorted
    ((sortPkgs_perm l₁).trans (hp.trans (sortPkgs_perm l₂).symm))
    (sortPkgs_sorted_lt h₁) (sortPkgs_sorted_lt h)

/-! ### Concrete example data used by witnesses -/

/-- Example production-only variant of a package. -/
def pkgAProd : GoPackage :=
  { pkgPath := "example.com/m/a", name := "a", goFiles := ["a.go"],
    errors := [], modulePath := some ("example.com/m") }

/-- Example combined (production + test) variant of the same package. -/
def pkgAComb : GoPackage :=
  { pkgPath := "example.com/m/a", name := "a",
    goFiles := ["a.go", "a_test.go"], errors := [],
    modulePath := some ("example.com/m") }

/-- Example production variant of the same package carrying a parse error. -/
def pkgAErr : GoPackage :=
  { pkgPath := "example.com/m/a", name := "a", goFiles := ["a.go"],
    errors := ["a.go:3:1: expected declaration"],
    modulePath := some ("example.com/m") }

/-- Example second package with a parse error. -/
def pkgBErr : GoPackage :=
  { pkgPath := "example.com/m/b", name := "b", goFiles := ["b.go"],
    errors := ["b.go:1:1: oops"], modulePath := some ("example.com/m") }

/-- Example synthetic test-binary artifact, carrying an error. -/
def pkgATest : GoPackage :=
  { pkgPath := "example.com/m/a.test", name := "main", goFiles := [],
    errors := ["no export data"], modulePath := some ("example.com/m") }

/-! ### Claims -/

/-- C1: for every engine-returned collection and every import-path
identifier, the package surviving reconciliation for that identifier is
one of the variants returned with that identifier whose file-set
cardinality is maximal, and it is the first such variant in the engine's
returned order (everything before it has strictly fewer files, nothing has
more). -/
theorem C1_dedup_keeps_first_max (pkgs : List GoPackage) (id : String)
    (p : GoPackage) (h : lookupKey id (dedupSeen pkgs) = some p) :
    ∃ pre post, pkgs.filter (fun q => q.pkgPath = id) = pre ++ p :: post ∧
      (∀ q ∈ pre, q.goFiles.length < p.goFiles.length) ∧
      ∀ q ∈ pkgs.filter (fun q => q.pkgPath = id),
        q.goFiles.length ≤ p.goFiles.length := by
  have hid : hasSuffix id (".test") = false := by
    cases hid : hasSuffix id (".test") with
    | false => rfl
    | true => rw [lookupKey_test_none hid] at h; cases h
  rw [lookupKey_dedupSeen id hid] at h
  obtain ⟨pre, post, hsplit, hpre, hpost⟩ := foldl_pickBest_none h
  refine ⟨pre, post, hsplit, hpre, ?_⟩
  intro q hq
  rw [hsplit] at hq
  rcases List.mem_append.mp hq with h' | h'
  · exact le_of_lt (hpre q h')
  · rcases List.mem_cons.mp h' with h'' | h''
    · rw [h'']
    · exact hpost q h''

theorem C1_witness :
    ∃ pre post,
      ([pkgAErr, pkgAComb, pkgAProd].filter
        (fun q => q.pkgPath = "example.com/m/a")) = pre ++ pkgAComb :: post ∧
      (∀ q ∈ pre, q.goFiles.length < pkgAComb.goFiles.length) ∧
      ∀ q ∈ [pkgAErr, pkgAComb, pkgAProd].filter
          (fun q => q.pkgPath = "example.com/m/a"),
        q.goFiles.length ≤ pkgAComb.goFiles.length :=
  C1_dedup_keeps_first_max [pkgAErr, pkgAComb, pkgAProd] ("example.com/m/a")
    pkgAComb (by decide)

/-- C2: every load that returns without hard error yields a package
sequence strictly sorted by import path in ascending byte-wise order
(hence without duplicate identifiers), none of whose elements carries the
synthetic (".test") suffix. -/
theorem C2_load_sorted_filtered (pkgs iter : List GoPackage)
    (hiter : DedupResult pkgs iter) :
    List.Sorted pkgLt (Load (.ok pkgs) iter).pkgs ∧
    ∀ p ∈ (Load (.ok pkgs) iter).pkgs, hasSuffix p.pkgPath (".test") = false := by
  constructor
  · exact sortPkgs_sorted_lt
      ((List.Perm.pairwise_iff pathNe_symm hiter).mpr
        (dedupValues_pairwise_ne pkgs))
  · intro p hp
    have h1 : p ∈ iter := (sortPkgs_perm iter).mem_iff.mp hp
    exact dedupValues_noTest p (hiter.mem_iff.mp h1)

theorem C2_witness :
    List.Sorted pkgLt
      (Load (.ok [pkgBErr, pkgATest, pkgAProd, pkgAComb])
        (dedupValues [pkgBErr, pkgATest, pkgAProd, pkgAComb])).pkgs ∧
    ∀ p ∈ (Load (.ok [pkgBErr, pkgATest, pkgAProd, pkgAComb])
        (dedupValues [pkgBErr, pkgATest, pkgAProd, pkgAComb])).pkgs,
      hasSuffix p.pkgPath (".test") = false :=
  C2_load_sorted_filtered [pkgBErr, pkgATest, pkgAProd, pkgAComb] _
    (List.Perm.refl _)

/-- C6: for a fixed engine-returned collection, any two map-iteration
orders of the deduplicated entries produce identical load outcomes: the
same packages in the same order and the same failure count. -/
theorem C6_load_deterministic (pkgs iter₁ iter₂ : List GoPackage)
    (h₁ : DedupResult pkgs iter₁) (h₂ : DedupResult pkgs iter₂) :
    Load (.ok pkgs) iter₁ = Load (.ok pkgs) iter₂ := by
  have hs : sortPkgs iter₁ = sortPkgs iter₂ :=
    sortPkgs_eq_of_perm (h₁.trans h₂.symm)
      ((List.Perm.pairwise_iff pathNe_symm h₂).mpr
        (dedupValues_pairwise_ne pkgs))
  simp [Load, hs]

theorem C6_witness :
    Load (.ok [pkgAProd, pkgAComb, pkgBErr]) [pkgBErr, pkgAComb] =
      Load (.ok [pkgAProd, pkgAComb, pkgBErr]) [pkgAComb, pkgBErr] :=
  C6_load_deterministic [pkgAProd, pkgAComb, pkgBErr]
    [pkgBErr, pkgAComb] [pkgAComb, pkgBErr] (by decide) (by decide)

/-- C10: every element of the returned sequence is one of the
engine-returned records, unmodified, and the output is never longer than
the engine's collection. -/
theorem C10_output_subset (pkgs iter : List GoPackage)
    (hiter : DedupResult pkgs iter) :
    (∀ p ∈ (Load (.ok pkgs) iter).pkgs, p ∈ pkgs) ∧
    (Load (.ok pkgs) iter).pkgs.length ≤ pkgs.length := by
  constructor
  · intro p hp
    have h1 : p ∈ iter := (sortPkgs_perm iter).mem_iff.mp hp
    exact mem_dedupValues p (hiter.mem_iff.mp h1)
  · have h1 : (sortPkgs iter).length = (dedupValues pkgs).length := by
      rw [(sortPkgs_perm iter).length_eq, hiter.length_eq]
    have h2 : (dedupValues pkgs).length ≤ pkgs.length := by
      rw [dedupValues, List.length_map]
      simpa using length_dedupFold pkgs []
    exact le_trans (le_of_eq h1) h2

theorem C10_witness :
    (∀ p ∈ (Load (.ok [pkgAProd, pkgAComb, pkgATest])
        (dedupValues [pkgAProd, pkgAComb, pkgATest])).pkgs,
      p ∈ [pkgAProd, pkgAComb, pkgATest]) ∧
    (Load (.ok [pkgAProd, pkgAComb, pkgATest])
        (dedupValues [pkgAProd, pkgAComb, pkgATest])).pkgs.length ≤
      [pkgAProd, pkgAComb, pkgATest].length :=
  C10_output_subset [pkgAProd, pkgAComb, pkgATest] _ (List.Perm.refl _)

theorem pickBest_some (b q : GoPackage) :
    ∃ c, pickBest (some b) q = some c := by
  by_cases h : b.goFiles.length < q.goFiles.length
  · exact ⟨q, by simp [pickBest, h]⟩
  · exact ⟨b, by simp [pickBest, h]⟩

theorem foldl_pickBest_acc_isSome :
    ∀ (vs : List GoPackage) (b : GoPackage),
      ∃ p, vs.foldl pickBest (some b) = some p := by
  intro vs
  induction vs with
  | nil => intro b; exact ⟨b, rfl⟩
  | cons q rest ih =>
    intro b
    rw [List.foldl_cons]
    obtain ⟨c, hc⟩ := pickBest_some b q
    rw [hc]
    exact ih c

/-- C4: the failure count of a successful load equals the number of
affected packages the diagnostic facility reports over the full,
unreconciled, unfiltered engine collection, for every map-iteration order;
in particular (second and third conjuncts) at an input whose only affected
variant is discarded by reconciliation, the count is still 1 while the
reconciled output contains no affected package, showing the count is not
recomputed after filtering. -/
theorem C4_error_count_prefilter :
    (∀ pkgs iter, (Load (.ok pkgs) iter).errorCount = printErrorsCount pkgs) ∧
    (Load (.ok [pkgAErr, pkgAComb])
      (dedupValues [pkgAErr, pkgAComb])).errorCount = 1 ∧
    printErrorsCount
      (Load (.ok [pkgAErr, pkgAComb])
        (dedupValues [pkgAErr, pkgAComb])).pkgs = 0 :=
  ⟨fun _ _ => rfl, by decide, by decide⟩

/-- C3 as stated is false: when the engine returns an affected
production-only variant next to an error-free combined variant with more
files, the load reports no hard error, yet the affected package record is
not returned in the output (only its reconciled sibling is). -/
theorem C3_counterexample :
    (Load (.ok [pkgAErr, pkgAComb])
      (dedupValues [pkgAErr, pkgAComb])).err = none ∧
    pkgAErr.errors ≠ [] ∧
    pkgAErr ∉ (Load (.ok [pkgAErr, pkgAComb])
      (dedupValues [pkgAErr, pkgAComb])).pkgs :=
  ⟨rfl, by decide, by decide⟩

/-- C3 amended: Load returns a hard error exactly when the engine
invocation fails, and then returns an empty package list and a zero
failure count; after a successful invocation no condition produces a hard
error, and every affected package that is not a synthetic test-binary
artifact has its identifier represented in the output — by the package
itself or by the same-identifier variant reconciliation kept instead. -/
theorem C3_hard_error_iff (engine : Except String (List GoPackage))
    (iter : List GoPackage) :
    ((Load engine iter).err.isSome ↔ ∃ e, engine = .error e) ∧
    (∀ e, engine = .error e →
      (Load engine iter).pkgs = [] ∧ (Load engine iter).errorCount = 0) ∧
    ∀ pkgs, engine = .ok pkgs → (Load engine iter).err = none ∧
      (DedupResult pkgs iter →
        ∀ p ∈ pkgs, p.errors ≠ [] → hasSuffix p.pkgPath (".test") = false →
          ∃ w ∈ (Load engine iter).pkgs, w.pkgPath = p.pkgPath) := by
  refine ⟨?_, ?_, ?_⟩
  · cases engine with
    | error e => simp [Load]
    | ok pkgs => simp [Load]
  · intro e he
    subst he
    exact ⟨rfl, rfl⟩
  · intro pkgs he
    subst he
    refine ⟨rfl, ?_⟩
    intro hiter p hp hperr hnt
    have hfmem : p ∈ pkgs.filter (fun q => q.pkgPath = p.pkgPath) :=
      List.mem_filter.mpr ⟨hp, by simp⟩
    obtain ⟨w, hw⟩ : ∃ w, lookupKey p.pkgPath (dedupSeen pkgs) = some w := by
      rw [lookupKey_dedupSeen _ hnt]
      cases hf : pkgs.filter (fun q => q.pkgPath = p.pkgPath) with
      | nil => rw [hf] at hfmem; exact absurd hfmem (List.not_mem_nil p)
      | cons q rest =>
        rw [List.foldl_cons]
        exact foldl_pickBest_acc_isSome rest q
    have hwmem : (p.pkgPath, w) ∈ dedupSeen pkgs := lookupKey_mem_keys hw
    have hwpath : w.pkgPath = p.pkgPath := by
      simpa using (seenInv_dedupSeen pkgs).coherent _ hwmem
    have hwval : w ∈ dedupValues pkgs := by
      rw [dedupValues]
      exact List.mem_map_of_mem Prod.snd hwmem
    have hwout : w ∈ (Load (.ok pkgs) iter).pkgs :=
      (sortPkgs_perm iter).mem_iff.mpr (hiter.mem_iff.mpr hwval)
    exact ⟨w, hwout, hwpath⟩

theorem C3_witness :
    ∃ w ∈ (Load (.ok [pkgAErr, pkgAComb])
        (dedupValues [pkgAErr, pkgAComb])).pkgs,
      w.pkgPath = pkgAErr.pkgPath :=
  ((C3_hard_error_iff (.ok [pkgAErr, pkgAComb])
      (dedupValues [pkgAErr, pkgAComb])).2.2
    [pkgAErr, pkgAComb] rfl).2 (List.Perm.refl _) pkgAErr
    (by decide) (by decide) (by decide)

theorem nodup_subset_length_le {l₁ l₂ : List String}
    (hsub : l₁ ⊆ l₂) (hn₁ : l₁.Nodup) : l₁.length ≤ l₂.length := by
  have h1 := List.toFinset_card_of_nodup hn₁
  have h2 : l₁.toFinset ⊆ l₂.toFinset := by
    intro x hx
    rw [List.mem_toFinset] at hx ⊢
    exact hsub hx
  have h3 := Finset.card_le_card h2
  have h4 := List.toFinset_card_le (l := l₂)
  omega

theorem subset_of_nodup_ge_length {l₁ l₂ : List String}
    (hsub : l₁ ⊆ l₂) (hn₁ : l₁.Nodup) (hn₂ : l₂.Nodup)
    (hlen : l₂.length ≤ l₁.length) : l₂ ⊆ l₁ := by
  have hfs : l₁.toFinset ⊆ l₂.toFinset := by
    intro x hx
    rw [List.mem_toFinset] at hx ⊢
    exact hsub hx
  have hc₁ := List.toFinset_card_of_nodup hn₁
  have hc₂ := List.toFinset_card_of_nodup hn₂
  have heq : l₁.toFinset = l₂.toFinset :=
    Finset.eq_of_subset_of_card_le hfs (by omega)
  intro x hx
  have hx' : x ∈ l₂.toFinset := List.mem_toFinset.mpr hx
  rw [← heq] at hx'
  exact List.mem_toFinset.mp hx'

/-- C5: when the engine returns, for one identifier, exactly a
production-only variant and a combined variant whose file set contains the
production one's (in either order), the output contains exactly one entry
with that identifier and its file set contains both variants' file sets
(i.e. their union). -/
theorem C5_variant_reconciliation (pkgs iter : List GoPackage) (id : String)
    (prod comb : GoPackage)
    (hiter : DedupResult pkgs iter)
    (hid : hasSuffix id (".test") = false)
    (hvariants :
      pkgs.filter (fun q => q.pkgPath = id) = [prod, comb] ∨
      pkgs.filter (fun q => q.pkgPath = id) = [comb, prod])
    (hsub : prod.goFiles ⊆ comb.goFiles)
    (hnp : prod.goFiles.Nodup) (hnc : comb.goFiles.Nodup) :
    ∃ w, (Load (.ok pkgs) iter).pkgs.filter (fun q => q.pkgPath = id) = [w] ∧
      prod.goFiles ⊆ w.goFiles ∧ comb.goFiles ⊆ w.goFiles := by
  have hlen : prod.goFiles.length ≤ comb.goFiles.length :=
    nodup_subset_length_le hsub hnp
  have hlook := lookupKey_dedupSeen id hid pkgs
  obtain ⟨w, hw, hwp, hwc⟩ :
      ∃ w, lookupKey id (dedupSeen pkgs) = some w ∧
        prod.goFiles ⊆ w.goFiles ∧ comb.goFiles ⊆ w.goFiles := by
    rcases hvariants with hv | hv
    · rw [hv] at hlook
      by_cases hl : prod.goFiles.length < comb.goFiles.length
      · refine ⟨comb, ?_, hsub, fun x hx => hx⟩
        rw [hlook]
        simp [pickBest, hl]
      · have hcs : comb.goFiles ⊆ prod.goFiles :=
          subset_of_nodup_ge_length hsub hnp hnc (by omega)
        refine ⟨prod, ?_, fun x hx => hx, hcs⟩
        rw [hlook]
        simp [pickBest, hl]
    · rw [hv] at hlook
      by_cases hl : comb.goFiles.length < prod.goFiles.length
      · omega
      · refine ⟨comb, ?_, hsub, fun x hx => hx⟩
        rw [hlook]
        simp [pickBest, hl]
  have hfv : (dedupValues pkgs).filter (fun q => q.pkgPath = id) = [w] := by
    have hfl := filter_values_eq_lookup (dedupSeen pkgs)
      (seenInv_dedupSeen pkgs) id
    rw [hw] at hfl
    simpa [dedupValues] using hfl
  have hperm :
      ((Load (.ok pkgs) iter).pkgs.filter (fun q => q.pkgPath = id)).Perm
        ((dedupValues pkgs).filter (fun q => q.pkgPath = id)) :=
    ((sortPkgs_perm iter).trans hiter).filter _
  rw [hfv] at hperm
  exact ⟨w, hperm.eq_singleton, hwp, hwc⟩

theorem C5_witness :
    ∃ w, (Load (.ok [pkgAProd, pkgBErr, pkgAComb])
        (dedupValues [pkgAProd, pkgBErr, pkgAComb])).pkgs.filter
          (fun q => q.pkgPath = "example.com/m/a") = [w] ∧
      pkgAProd.goFiles ⊆ w.goFiles ∧ pkgAComb.goFiles ⊆ w.goFiles :=
  C5_variant_reconciliation [pkgAProd, pkgBErr, pkgAComb] _
    ("example.com/m/a") pkgAProd pkgAComb (List.Perm.refl _) (by decide)
    (Or.inl (by decide)) (by decide) (by decide) (by decide)

/-- C7: whenever the resolved input canonicalizes to a path whose stat
reports an existing non-directory entry, `NewTargetDirectory` fails with
the is-a-file kind and the error text contains the offending path. -/
theorem C7_is_a_file (fs : FileSystemModel)
    (inputPath resolved canonical : String)
    (hres : resolveInput fs inputPath = .ok resolved)
    (hcanon : fs.evalSymlinks resolved = some canonical)
    (hstat : fs.stat canonical = .entry false) :
    NewTargetDirectory fs inputPath =
      .error (.invalid (.isAFile canonical)) ∧
    canonical.data.IsInfix
      ((ResolveError.invalid (.isAFile canonical)).text.data) := by
  constructor
  · unfold NewTargetDirectory
    simp only [hres, hcanon]
    simp [Validate, hstat]
  · refine ⟨"'".data, "' is a file, not a directory".data, ?_⟩
    show ("'").data ++ canonical.data ++ "' is a file, not a directory".data =
      ("'" ++ canonical ++ "' is a file, not a directory").data
    simp

/-- A filesystem with one plain file and nothing else, used to witness C7. -/
def fsPlainFile : FileSystemModel :=
  { getwd := some ("/home/dev")
    abs := fun p => some ("/home/dev/" ++ p)
    evalSymlinks := fun p => some p
    stat := fun p =>
      if p = "/home/dev/notes.txt" then .entry false else .notExist }

theorem C7_witness :
    NewTargetDirectory fsPlainFile ("notes.txt") =
      .error (.invalid (.isAFile ("/home/dev/notes.txt"))) ∧
    ("/home/dev/notes.txt").data.IsInfix
      ((ResolveError.invalid
        (.isAFile ("/home/dev/notes.txt"))).text.data) :=
  C7_is_a_file fsPlainFile ("notes.txt") ("/home/dev/notes.txt")
    ("/home/dev/notes.txt") rfl rfl rfl

theorem resolveInput_error_kinds {fs : FileSystemModel}
    {inputPath : String} {e : ResolveError}
    (h : resolveInput fs inputPath = .error e) :
    e = .getwdFailed ∨ ∃ s, e = .absFailed s := by
  unfold resolveInput at h
  by_cases hin : inputPath = ""
  · rw [if_pos hin] at h
    cases hg : fs.getwd with
    | none =>
      rw [hg] at h
      cases h
      exact Or.inl rfl
    | some cwd => rw [hg] at h; cases h
  · rw [if_neg hin] at h
    cases ha : fs.abs inputPath with
    | none =>
      rw [ha] at h
      cases h
      exact Or.inr ⟨inputPath, rfl⟩
    | some a => rw [ha] at h; cases h

/-- C9: over a filesystem on which `EvalSymlinks` fails for paths that do
not exist and only returns targets that exist (its documented behaviour,
with no change between canonicalization and validation), an input whose
absolute form does not exist makes `NewTargetDirectory` fail at the
symlink-canonicalization step with the resolution-error text, and no
invocation whatsoever can return Validate's not-found error. -/
theorem C9_not_found_unreachable (fs : FileSystemModel)
    (hfail : ∀ p, fs.stat p = .notExist → fs.evalSymlinks p = none)
    (hok : ∀ p c, fs.evalSymlinks p = some c → fs.stat c ≠ .notExist) :
    (∀ inputPath resolved,
      resolveInput fs inputPath = .ok resolved →
      fs.stat resolved = .notExist →
      NewTargetDirectory fs inputPath = .error (.symlinkFailed resolved) ∧
      ("failed to resolve symlinks").data.IsInfix
        ((ResolveError.symlinkFailed resolved).text.data)) ∧
    ∀ inputPath p,
      NewTargetDirectory fs inputPath ≠ .error (.invalid (.notFound p)) := by
  constructor
  · intro inputPath resolved hres hstat
    constructor
    · unfold NewTargetDirectory
      simp only [hres]
      rw [hfail resolved hstat]
    · refine ⟨[], " for '".data ++ resolved.data ++ "'".data, ?_⟩
      show [] ++ "failed to resolve symlinks".data ++
          (" for '".data ++ resolved.data ++ "'".data) =
        ("failed to resolve symlinks for '" ++ resolved ++ "'").data
      simp only [List.nil_append, String.data_append, ← List.append_assoc]
      rfl
  · intro inputPath p hcontra
    unfold NewTargetDirectory at hcontra
    cases hres : resolveInput fs inputPath with
    | error e =>
      simp only [hres] at hcontra
      rcases resolveInput_error_kinds hres with hk | ⟨s, hk⟩ <;>
        (subst hk; simp at hcontra)
    | ok resolved =>
      simp only [hres] at hcontra
      cases hcanon : fs.evalSymlinks resolved with
      | none => simp only [hcanon] at hcontra; simp at hcontra
      | some canonical =>
        simp only [hcanon] at hcontra
        have hne := hok resolved canonical hcanon
        unfold Validate at hcontra
        cases hstat : fs.stat canonical with
        | notExist => exact hne hstat
        | permissionDenied => simp only [hstat] at hcontra; simp at hcontra
        | otherError m => simp only [hstat] at hcontra; simp at hcontra
        | entry d =>
          simp only [hstat] at hcontra
          cases d <;> simp at hcontra

/-- A filesystem with a single directory and nothing else, on which
canonicalization respects existence; used to witness C9. -/
def fsRootOnly : FileSystemModel :=
  { getwd := some ("/root")
    abs := fun p => some p
    evalSymlinks := fun p => if p = "/root" then some ("/root") else none
    stat := fun p => if p = "/root" then .entry true else .notExist }

theorem fsRootOnly_eval_fails_on_missing :
    ∀ p, fsRootOnly.stat p = .notExist → fsRootOnly.evalSymlinks p = none := by
  intro p hp
  by_cases h : p = "/root"
  · rw [show fsRootOnly.stat p = .entry true by simp [fsRootOnly, h]] at hp
    cases hp
  · simp [fsRootOnly, h]

theorem fsRootOnly_eval_targets_exist :
    ∀ p c, fsRootOnly.evalSymlinks p = some c →
      fsRootOnly.stat c ≠ .notExist := by
  intro p c hpc
  by_cases h : p = "/root"
  · rw [show fsRootOnly.evalSymlinks p = some ("/root") by simp [fsRootOnly, h]]
      at hpc
    cases hpc
    simp [fsRootOnly]
  · rw [show fsRootOnly.evalSymlinks p = none by simp [fsRootOnly, h]] at hpc
    cases hpc

theorem C9_witness :
    (NewTargetDirectory fsRootOnly ("/data") =
      .error (.symlinkFailed ("/data")) ∧
    ("failed to resolve symlinks").data.IsInfix
      ((ResolveError.symlinkFailed ("/data")).text.data)) ∧
    NewTargetDirectory fsRootOnly ("/data") ≠
      .error (.invalid (.notFound ("/data"))) :=
  ⟨(C9_not_found_unreachable fsRootOnly fsRootOnly_eval_fails_on_missing
      fsRootOnly_eval_targets_exist).1 ("/data") ("/data") rfl rfl,
   (C9_not_found_unreachable fsRootOnly fsRootOnly_eval_fails_on_missing
      fsRootOnly_eval_targets_exist).2 ("/data") ("/data")⟩

/-- C8: the parse subcommand exits 0 exactly when flag parsing succeeds,
the positional directory resolves, the output flag is non-empty and the
engine invocation succeeds — whatever parse failures the loaded packages
carry — and exits 1 otherwise; the last two conjuncts run a load whose
packages carry one parse failure and still observe exit status 0. -/
theorem C8_exit_status (fs : FileSystemModel)
    (flags : Except String ParsedFlags)
    (engine : Except String (List GoPackage)) (iter : List GoPackage) :
    ((parseExitStatus fs flags engine iter = 0 ↔
      (∃ f, flags = .ok f ∧ f.output ≠ "" ∧
        ∃ td, NewTargetDirectory fs (dirArgOf f) = .ok td) ∧
      ∃ pkgs, engine = .ok pkgs) ∧
    (parseExitStatus fs flags engine iter = 0 ∨
      parseExitStatus fs flags engine iter = 1)) ∧
    (parseExitStatus fsRootOnly
      (.ok { output := "graph.json", includeTests := true,
             positionals := ["/root"] })
      (.ok [pkgBErr]) (dedupValues [pkgBErr]) = 0 ∧
    printErrorsCount [pkgBErr] = 1) := by
  refine ⟨⟨?_, ?_⟩, by decide, by decide⟩
  · unfold parseExitStatus NewParseCommand Execute Load
    cases flags with
    | error e => simp
    | ok f =>
      cases hdir : NewTargetDirectory fs (dirArgOf f) with
      | error e => simp [hdir]
      | ok td =>
        by_cases hout : f.output = ""
        · simp [hdir, hout]
        · cases engine with
          | error e => simp [hdir, hout]
          | ok pkgs => simp [hdir, hout]
  · unfold parseExitStatus
    cases NewParseCommand fs flags with
    | error e => exact Or.inr rfl
    | ok pc =>
      cases Execute engine iter with
      | none => exact Or.inl rfl
      | some e => exact Or.inr rfl

end Codegraph
